import Mathlib

/-!
Verification of the `comb` parser-combinator library.

The library works over string slices: a parser is a function from an input
view to `Result<(remaining, value), (position, ParserError)>`.  We embed an
input view as a `List Char` and mirror every public combinator of
`src/comb/src/lib.rs`.  Because `many` is a `while let Ok` loop that spins
forever when its inner parser keeps succeeding without consuming input,
parser invocation is embedded as `List Char → Option (PRes T)` where `none`
models exactly that divergence (a call that never returns); every other
code path produces `some` outcome.  `manyRun` below carries fuel
`input.length + 1`: each iteration of the loop that continues is guarded by
a strict decrease of the remaining length, so the fuel can never run out on
a path the Rust loop completes, and the `none` results correspond one to
one with the two ways the Rust loop fails to return (a non-consuming inner
success, which repeats the identical state forever, or an inner call that
itself never returns).
-/

namespace comb

/-- The `ParserError` enum of the source, verbatim. -/
inductive ParserError where
  | Check
  | Choice
  | Eof
  | Tag
  | TakeWhile
  | MapRes
deriving DecidableEq

/-- Outcome of one parser invocation: `Result<(&str, T), (&str, ParserError)>`. -/
inductive PRes (T : Type) where
  | ok : List Char → T → PRes T
  | err : List Char → ParserError → PRes T
deriving DecidableEq

/-- A parser on an input view; `none` models an invocation that never returns. -/
abbrev Parser (T : Type) := List Char → Option (PRes T)

/-- Rust `Result::and_then`, lifted over the divergence layer. -/
def pbind (x : Option (PRes A)) (f : List Char → A → Option (PRes B)) :
    Option (PRes B) :=
  x.bind fun
    | .ok i r => f i r
    | .err j e => some (.err j e)

/-- Rust `Result::map`, lifted over the divergence layer. -/
def pmap (x : Option (PRes A)) (f : List Char → A → PRes B) : Option (PRes B) :=
  x.map fun
    | .ok i r => f i r
    | .err j e => .err j e

/-- Mirror of `str::find` with a character predicate: index of the first
character satisfying the predicate. -/
def findIdxP (p : Char → Bool) : List Char → Option Nat
  | [] => none
  | c :: t => if p c then some 0 else (findIdxP p t).map (· + 1)

/-- Mirror of `str::find` with a string pattern: byte index of the first
occurrence of the pattern (for an empty pattern, `some 0`). -/
def findSub (pat : List Char) : List Char → Option Nat
  | [] => if pat.isPrefixOf ([] : List Char) then some 0 else none
  | c :: t => if pat.isPrefixOf (c :: t) then some 0 else (findSub pat t).map (· + 1)

/-- `tag`: recognizes a fixed string pattern (`lib.rs` lines 20-25). -/
def tag (t : List Char) : Parser (List Char) := fun i =>
  some (if t.isPrefixOf i then .ok (i.drop t.length) t else .err i .Tag)

/-- `value`: converts a matched parser to a fixed value (lines 41-47). -/
def value (p : Parser A) (v : B) : Parser B := fun i =>
  pmap (p i) fun i2 _ => .ok i2 v

/-- `map`: transforms the successful output of a parser (lines 64-70). -/
def map (p : Parser A) (f : A → B) : Parser B := fun i =>
  pmap (p i) fun i2 r => .ok i2 (f r)

/-- `map_res`: like `map`, but a failing transform rejects the token with
`MapRes` at the post-inner position (lines 84-90).  The Rust transform
returns `Result<B, E>` whose error content is discarded, so it is embedded
as `Option B`. -/
def map_res (p : Parser A) (f : A → Option B) : Parser B := fun i =>
  pmap (p i) fun i2 r =>
    match f r with
    | some b => .ok i2 b
    | none => .err i2 .MapRes

/-- `opt`: swallows errors into `None`, leaving the input unconsumed
(lines 104-109). -/
def opt (p : Parser A) : Parser (Option A) := fun i =>
  (p i).map fun
    | .ok i2 r => .ok i2 (some r)
    | .err _ _ => .ok i none

/-- `pair`: both parsers in sequence, tuple of results (lines 123-129). -/
def pair (a : Parser A) (b : Parser B) : Parser (A × B) := fun i =>
  pbind (a i) fun i1 r1 => pmap (b i1) fun i2 r2 => .ok i2 (r1, r2)

/-- `trio`: three parsers in sequence (lines 142-149). -/
def trio (a : Parser A) (b : Parser B) (c : Parser C) : Parser (A × B × C) :=
  fun i =>
    pbind (a i) fun i1 x =>
      pbind (b i1) fun i2 y => pmap (c i2) fun i3 z => .ok i3 (x, y, z)

/-- `right`: sequence keeping only the second result (lines 163-169). -/
def right (a : Parser A) (b : Parser B) : Parser B := fun i =>
  pbind (a i) fun i1 _ => pmap (b i1) fun i2 r2 => .ok i2 r2

/-- `left`: sequence keeping only the first result (lines 183-189). -/
def left (a : Parser A) (b : Parser B) : Parser A := fun i =>
  pbind (a i) fun i1 r1 => pmap (b i1) fun i2 _ => .ok i2 r1

/-- `middle`: three in sequence keeping the middle result (lines 203-210). -/
def middle (a : Parser A) (b : Parser B) (c : Parser C) : Parser B := fun i =>
  pbind (a i) fun i1 _ =>
    pbind (b i1) fun i2 r2 => pmap (c i2) fun i3 _ => .ok i3 r2

/-- `outer`: three in sequence keeping the outer results (lines 224-231). -/
def outer (a : Parser A) (b : Parser B) (c : Parser C) : Parser (A × C) :=
  fun i =>
    pbind (a i) fun i1 x =>
      pbind (b i1) fun i2 _ => pmap (c i2) fun i3 z => .ok i3 (x, z)

/-- `either`: first parser, or on its failure the second on the original
input (lines 245-251). -/
def either (a : Parser R) (b : Parser R) : Parser R := fun i =>
  (a i).bind fun
    | .ok i2 r => some (.ok i2 r)
    | .err _ _ => b i

/-- Loop of `choice`: `iter().find_map(|p| p(i).ok())`, then
`ok_or((i, Choice))` (lines 267-278). -/
def choiceGo (ps : List (Parser R)) (i : List Char) : Option (PRes R) :=
  match ps with
  | [] => some (.err i .Choice)
  | p :: rest =>
    (p i).bind fun
      | .ok i2 r => some (.ok i2 r)
      | .err _ _ => choiceGo rest i

/-- `choice`: ordered alternation over a collection (lines 267-278). -/
def choice (ps : List (Parser R)) : Parser R := fun i => choiceGo ps i

/-- `take_while`: maximal prefix of characters satisfying a predicate, at
least one required (lines 292-302). -/
def take_while (p : Char → Bool) : Parser (List Char) := fun i =>
  some (match findIdxP (fun c => !p c) i with
    | some 0 => .err i .TakeWhile
    | some x => .ok (i.drop x) (i.take x)
    | none => if i.length > 0 then .ok (i.drop i.length) i else .err i .TakeWhile)

/-- `take_until`: everything before the first occurrence of a literal; on no
occurrence, an empty match with the input unconsumed (lines 320-322). -/
def take_until (t : List Char) : Parser (List Char) := fun i =>
  some (match findSub t i with
    | none => .ok i []
    | some x => .ok (i.drop x) (i.take x))

/-- `peek`: runs the inner parser without consuming (lines 336-341). -/
def peek (p : Parser R) : Parser R := fun i =>
  pmap (p i) fun _ o => .ok i o

/-- `recognize`: raw span consumed by the inner parser (lines 357-362).  The
Rust code computes the span length as the pointer difference between the
original and remaining slices; per the suffix invariant I1 (and spec §4.4,
which mandates tracking it as `original.length - remaining.length`) this is
the length difference, so the span is `i.take (i.length - i2.length)`. -/
def recognize (p : Parser R) : Parser (List Char) := fun i =>
  pmap (p i) fun i2 _ => .ok i2 (i.take (i.length - i2.length))

/-- `check`: gates the inner result through a predicate; every failing path
(predicate false, or inner failure) hits the `_` arm and yields `Check` at
the original input (lines 375-384). -/
def check (p : Parser R) (f : R → Bool) : Parser R := fun i =>
  (p i).map fun
    | .ok i2 r => if f r then .ok i2 r else .err i .Check
    | .err _ _ => .err i .Check

/-- Fuelled unfolding of the `while let Ok` loop of `many` (lines 402-414).
A continuing iteration strictly shrinks the remaining input, so fuel
`i.length + 1` never runs out on a terminating path; `none` is produced
exactly when the inner parser diverges or succeeds without consuming (in
which case the Rust loop re-runs the identical state forever). -/
def manyRun (p : Parser R) : Nat → List Char → Option (PRes (List R))
  | 0, _ => none
  | fuel + 1, i =>
    match p i with
    | none => none
    | some (.err _ _) => some (.ok i [])
    | some (.ok i2 r) =>
      if i2.length < i.length then
        pmap (manyRun p fuel i2) fun i3 rs => .ok i3 (r :: rs)
      else none

/-- `many`: zero-or-more repetitions of the inner parser (lines 402-414). -/
def many (p : Parser R) : Parser (List R) := fun i =>
  manyRun p (i.length + 1) i

/-- `chain`: separator-delimited repetition with optional trailing separator
(lines 430-439): `map(pair(p, left(many(right(sep, p)), opt(sep))), join)(i)
.or(Ok((i, vec![])))` with `join (a, b) = [vec![a], b].concat()`. -/
def chain (sep : Parser A) (p : Parser B) : Parser (List B) := fun i =>
  match map (pair p (left (many (right sep p)) (opt sep)))
      (fun ab => ab.1 :: ab.2) i with
  | some (.ok i2 v) => some (.ok i2 v)
  | some (.err _ _) => some (.ok i [])
  | none => none

/-- `eoi`: succeeds with an empty value on empty input (lines 532-537). -/
def eoi : Parser (List Char) := fun i =>
  some (if i.isEmpty then .ok i [] else .err i .Eof)

/-- `whitespace`: maximal leading whitespace run, never fails (lines
553-558).  Rust `char::is_whitespace` is embedded as `Char.isWhitespace`
(they agree on the ASCII whitespace the claims exercise). -/
def whitespace : Parser (List Char) := fun i =>
  some (match findIdxP (fun c => !c.isWhitespace) i with
    | some x => .ok (i.drop x) (i.take x)
    | none => .ok [] i)

/-- `w`: skip leading whitespace, then the inner parser (lines 571-576). -/
def w (p : Parser R) : Parser R :=
  right whitespace p

/-- `infix` of the source (lines 453-459); `infixC` because `infix` is
reserved in Lean: `pair(p, many(pair(w(o), p)))`. -/
def infixC (p : Parser R) (o : Parser S) : Parser (R × List (S × R)) :=
  fun i => pair p (many (pair (w o) p)) i

/-- `prefix` of the source (lines 472-478); `prefixC` because `prefix` is
reserved in Lean: `pair(many(w(p)), q)`. -/
def prefixC (p : Parser X) (q : Parser Y) : Parser (List X × Y) :=
  fun i => pair (many (w p)) q i

/-- `boxed` (lines 491-496): `map(i, Box::new)`; a box is a value-transparent
heap indirection, so its payload is embedded as the value itself. -/
def boxed (p : Parser R) : Parser R :=
  map p (fun r => r)

/-- Numeric value of a run of decimal digit characters. -/
def digitsVal (ds : List Char) : Nat :=
  ds.foldl (fun a c => 10 * a + (c.toNat - 48)) 0

/-- Modelled from the spec: the exponent tail of the Rust standard library
float syntax (`str::parse::<f64>` is library code outside this repository).
Accepts `[eE] [+-]? digits` or nothing, over exact rationals. -/
def parseExp : List Char → Option ℚ
  | [] => some 1
  | c :: r =>
    if c = 'e' ∨ c = 'E' then
      let (neg, r2) : Bool × List Char :=
        match r with
        | '+' :: t => (false, t)
        | '-' :: t => (true, t)
        | _ => (false, r)
      let ed := r2.takeWhile Char.isDigit
      if ed.isEmpty ∨ !(r2.dropWhile Char.isDigit).isEmpty then none
      else if neg then some (1 / (10 : ℚ) ^ digitsVal ed)
      else some ((10 : ℚ) ^ digitsVal ed)
    else none

/-- Modelled from the spec: `str::parse::<f64>` (Rust standard library code,
not part of this repository), embedded over exact rationals: an optional
sign, then either `digits ['.' digits?]` or `'.' digits`, then an optional
exponent; anything else (in particular a bare `.` or a dangling exponent
marker) is rejected.  Exact rational arithmetic stands in for the float
rounding, which is immaterial to the decimal values the claims exercise. -/
def parseFloat (s : List Char) : Option ℚ :=
  let (sgn, s1) : ℚ × List Char :=
    match s with
    | '+' :: r => (1, r)
    | '-' :: r => (-1, r)
    | _ => (1, s)
  let ip := s1.takeWhile Char.isDigit
  let r1 := s1.dropWhile Char.isDigit
  match r1 with
  | '.' :: r2 =>
    let fp := r2.takeWhile Char.isDigit
    let r3 := r2.dropWhile Char.isDigit
    if ip.isEmpty ∧ fp.isEmpty then none
    else
      (parseExp r3).map fun e =>
        sgn * ((digitsVal ip : ℚ) + (digitsVal fp : ℚ) / (10 : ℚ) ^ fp.length) * e
  | _ =>
    if ip.isEmpty then none
    else (parseExp r1).map fun e => sgn * (digitsVal ip : ℚ) * e

/-- `double` (lines 513-520), composed exactly as in the source.  Rust
`char::is_numeric` is embedded as `Char.isDigit` (they agree on the ASCII
digits the grammar and claims exercise). -/
def double : Parser ℚ := fun i =>
  let digit : Parser (List Char) := fun j => take_while (fun c => c.isDigit) j
  let sign : Parser (Option (List Char)) := fun j =>
    opt (either (tag ['+']) (tag ['-'])) j
  let num := value (pair digit (opt (pair (tag ['.']) (opt digit)))) (0 : Nat)
  let frac := value (pair (tag ['.']) digit) (0 : Nat)
  let exp := opt (trio (either (tag ['e']) (tag ['E'])) sign digit)
  map_res (recognize (trio sign (either num frac) exp)) (fun s => parseFloat s) i

/-! ## Inversion lemmas for the result plumbing -/

/-- Inverting a successful `pbind`. -/
theorem pbind_eq_ok {x : Option (PRes A)} {f : List Char → A → Option (PRes B)}
    {rem : List Char} {v : B} :
    pbind x f = some (.ok rem v) ↔
      ∃ j r, x = some (.ok j r) ∧ f j r = some (.ok rem v) := by
  cases x with
  | none => simp [pbind]
  | some res =>
    cases res with
    | ok j r =>
      simp only [pbind, Option.some_bind, Option.some.injEq, PRes.ok.injEq]
      constructor
      · intro h
        exact ⟨j, r, ⟨rfl, rfl⟩, h⟩
      · rintro ⟨j1, r1, ⟨rfl, rfl⟩, h⟩
        exact h
    | err j e => simp [pbind]

/-- Inverting a successful `pmap`. -/
theorem pmap_eq_ok {x : Option (PRes A)} {f : List Char → A → PRes B}
    {rem : List Char} {v : B} :
    pmap x f = some (.ok rem v) ↔
      ∃ j r, x = some (.ok j r) ∧ f j r = .ok rem v := by
  cases x with
  | none => simp [pmap]
  | some res =>
    cases res with
    | ok j r =>
      simp only [pmap, Option.map_some', Option.some.injEq, PRes.ok.injEq]
      constructor
      · intro h
        exact ⟨j, r, ⟨rfl, rfl⟩, h⟩
      · rintro ⟨j1, r1, ⟨rfl, rfl⟩, h⟩
        exact h
    | err j e => simp [pmap]

/-! ## The suffix invariant -/

/-- Invariant I1 as a predicate on an embedded parser: every successful
invocation leaves a suffix of its input. -/
def SufOK (p : Parser A) : Prop :=
  ∀ i rem v, p i = some (.ok rem v) → rem <:+ i

theorem sufok_tag (t : List Char) : SufOK (tag t) := by
  intro i rem v h
  simp only [tag, Option.some.injEq] at h
  split at h
  · cases h
    exact List.drop_suffix _ _
  · cases h

theorem sufok_value {p : Parser A} (hp : SufOK p) (v : B) : SufOK (value p v) := by
  intro i rem x h
  simp only [value, pmap_eq_ok] at h
  obtain ⟨j, r, hj, he⟩ := h
  cases he
  exact hp _ _ _ hj

theorem sufok_map {p : Parser A} (hp : SufOK p) (f : A → B) : SufOK (map p f) := by
  intro i rem x h
  simp only [map, pmap_eq_ok] at h
  obtain ⟨j, r, hj, he⟩ := h
  cases he
  exact hp _ _ _ hj

theorem sufok_map_res {p : Parser A} (hp : SufOK p) (f : A → Option B) :
    SufOK (map_res p f) := by
  intro i rem x h
  simp only [map_res, pmap_eq_ok] at h
  obtain ⟨j, r, hj, he⟩ := h
  split at he
  · cases he
    exact hp _ _ _ hj
  · cases he

theorem sufok_opt {p : Parser A} (hp : SufOK p) : SufOK (opt p) := by
  intro i rem x h
  simp only [opt] at h
  cases hx : p i with
  | none => rw [hx] at h; cases h
  | some res =>
    rw [hx] at h
    cases res with
    | ok j r =>
      simp only [Option.map_some'] at h
      cases h
      exact hp _ _ _ hx
    | err j e =>
      simp only [Option.map_some'] at h
      cases h
      exact List.suffix_refl i

theorem sufok_pair {a : Parser A} {b : Parser B} (ha : SufOK a) (hb : SufOK b) :
    SufOK (pair a b) := by
  intro i rem v h
  simp only [pair, pbind_eq_ok, pmap_eq_ok] at h
  obtain ⟨j1, r1, h1, j2, r2, h2, he⟩ := h
  cases he
  exact (hb _ _ _ h2).trans (ha _ _ _ h1)

theorem sufok_trio {a : Parser A} {b : Parser B} {c : Parser C}
    (ha : SufOK a) (hb : SufOK b) (hc : SufOK c) : SufOK (trio a b c) := by
  intro i rem v h
  simp only [trio, pbind_eq_ok, pmap_eq_ok] at h
  obtain ⟨j1, r1, h1, j2, r2, h2, j3, r3, h3, he⟩ := h
  cases he
  exact ((hc _ _ _ h3).trans (hb _ _ _ h2)).trans (ha _ _ _ h1)

theorem sufok_right {a : Parser A} {b : Parser B} (ha : SufOK a) (hb : SufOK b) :
    SufOK (right a b) := by
  intro i rem v h
  simp only [right, pbind_eq_ok, pmap_eq_ok] at h
  obtain ⟨j1, r1, h1, j2, r2, h2, he⟩ := h
  cases he
  exact (hb _ _ _ h2).trans (ha _ _ _ h1)

theorem sufok_left {a : Parser A} {b : Parser B} (ha : SufOK a) (hb : SufOK b) :
    SufOK (left a b) := by
  intro i rem v h
  simp only [left, pbind_eq_ok, pmap_eq_ok] at h
  obtain ⟨j1, r1, h1, j2, r2, h2, he⟩ := h
  cases he
  exact (hb _ _ _ h2).trans (ha _ _ _ h1)

theorem sufok_middle {a : Parser A} {b : Parser B} {c : Parser C}
    (ha : SufOK a) (hb : SufOK b) (hc : SufOK c) : SufOK (middle a b c) := by
  intro i rem v h
  simp only [middle, pbind_eq_ok, pmap_eq_ok] at h
  obtain ⟨j1, r1, h1, j2, r2, h2, j3, r3, h3, he⟩ := h
  cases he
  exact ((hc _ _ _ h3).trans (hb _ _ _ h2)).trans (ha _ _ _ h1)

theorem sufok_outer {a : Parser A} {b : Parser B} {c : Parser C}
    (ha : SufOK a) (hb : SufOK b) (hc : SufOK c) : SufOK (outer a b c) := by
  intro i rem v h
  simp only [outer, pbind_eq_ok, pmap_eq_ok] at h
  obtain ⟨j1, r1, h1, j2, r2, h2, j3, r3, h3, he⟩ := h
  cases he
  exact ((hc _ _ _ h3).trans (hb _ _ _ h2)).trans (ha _ _ _ h1)

theorem sufok_either {a b : Parser R} (ha : SufOK a) (hb : SufOK b) :
    SufOK (either a b) := by
  intro i rem v h
  simp only [either] at h
  cases hx : a i with
  | none => rw [hx] at h; cases h
  | some res =>
    rw [hx] at h
    cases res with
    | ok j r =>
      simp only [Option.some_bind] at h
      cases h
      exact ha _ _ _ hx
    | err j e =>
      simp only [Option.some_bind] at h
      exact hb _ _ _ h

theorem sufok_choiceGo {ps : List (Parser R)} (hps : ∀ p ∈ ps, SufOK p) :
    ∀ i rem v, choiceGo ps i = some (.ok rem v) → rem <:+ i := by
  induction ps with
  | nil => intro i rem v h; simp [choiceGo] at h
  | cons p rest ih =>
    intro i rem v h
    simp only [choiceGo] at h
    cases hx : p i with
    | none => rw [hx] at h; cases h
    | some res =>
      rw [hx] at h
      cases res with
      | ok j r =>
        simp only [Option.some_bind] at h
        cases h
        exact hps p (by simp) _ _ _ hx
      | err j e =>
        simp only [Option.some_bind] at h
        exact ih (fun q hq => hps q (by simp [hq])) i rem v h

theorem sufok_choice {ps : List (Parser R)} (hps : ∀ p ∈ ps, SufOK p) :
    SufOK (choice ps) := by
  intro i rem v h
  exact sufok_choiceGo hps i rem v h

theorem sufok_take_while (p : Char → Bool) : SufOK (take_while p) := by
  intro i rem v h
  simp only [take_while, Option.some.injEq] at h
  split at h
  · cases h
  · cases h
    exact List.drop_suffix _ _
  · split at h
    · cases h
      exact List.drop_suffix _ _
    · cases h

theorem sufok_take_until (t : List Char) : SufOK (take_until t) := by
  intro i rem v h
  simp only [take_until, Option.some.injEq] at h
  split at h
  · cases h
    exact List.suffix_refl i
  · cases h
    exact List.drop_suffix _ _

theorem sufok_peek {p : Parser R} : SufOK (peek p) := by
  intro i rem v h
  simp only [peek, pmap_eq_ok] at h
  obtain ⟨j, r, hj, he⟩ := h
  cases he
  exact List.suffix_refl i

theorem sufok_recognize {p : Parser R} (hp : SufOK p) : SufOK (recognize p) := by
  intro i rem v h
  simp only [recognize, pmap_eq_ok] at h
  obtain ⟨j, r, hj, he⟩ := h
  cases he
  exact hp _ _ _ hj

theorem sufok_check {p : Parser R} (hp : SufOK p) (f : R → Bool) :
    SufOK (check p f) := by
  intro i rem v h
  simp only [check] at h
  cases hx : p i with
  | none => rw [hx] at h; cases h
  | some res =>
    rw [hx] at h
    cases res with
    | ok j r =>
      simp only [Option.map_some'] at h
      split at h
      · cases h
        exact hp _ _ _ hx
      · cases h
    | err j e =>
      simp only [Option.map_some'] at h
      cases h

theorem sufok_manyRun {p : Parser R} (hp : SufOK p) :
    ∀ fuel i rem v, manyRun p fuel i = some (.ok rem v) → rem <:+ i := by
  intro fuel
  induction fuel with
  | zero => intro i rem v h; cases h
  | succ n ih =>
    intro i rem v h
    simp only [manyRun] at h
    split at h
    · cases h
    · cases h
      exact List.suffix_refl i
    · next i2 r hx =>
      split at h
      · rw [pmap_eq_ok] at h
        obtain ⟨j, rs, hj, he⟩ := h
        cases he
        exact (ih _ _ _ hj).trans (hp _ _ _ hx)
      · cases h

theorem sufok_many {p : Parser R} (hp : SufOK p) : SufOK (many p) := by
  intro i rem v h
  exact sufok_manyRun hp _ i rem v h

theorem sufok_chain {sep : Parser A} {p : Parser B} (hs : SufOK sep)
    (hp : SufOK p) : SufOK (chain sep p) := by
  intro i rem v h
  simp only [chain] at h
  have hbody : SufOK (map (pair p (left (many (right sep p)) (opt sep)))
      (fun ab => ab.1 :: ab.2)) :=
    sufok_map (sufok_pair hp (sufok_left (sufok_many (sufok_right hs hp))
      (sufok_opt hs))) _
  split at h
  next i2 v2 heq =>
    cases h
    exact hbody _ _ _ heq
  next => cases h; exact List.suffix_refl i
  next => cases h

theorem sufok_eoi : SufOK eoi := by
  intro i rem v h
  simp only [eoi, Option.some.injEq] at h
  split at h
  · cases h
    exact List.suffix_refl i
  · cases h

theorem sufok_whitespace : SufOK whitespace := by
  intro i rem v h
  simp only [whitespace, Option.some.injEq] at h
  split at h
  · cases h
    exact List.drop_suffix _ _
  · cases h
    exact List.nil_suffix

theorem sufok_w {p : Parser R} (hp : SufOK p) : SufOK (w p) :=
  sufok_right sufok_whitespace hp

theorem sufok_infixC {p : Parser R} {o : Parser S} (hp : SufOK p)
    (ho : SufOK o) : SufOK (infixC p o) := by
  intro i rem v h
  exact sufok_pair hp (sufok_many (sufok_pair (sufok_w ho) hp)) _ _ _ h

theorem sufok_prefixC {p : Parser X} {q : Parser Y} (hp : SufOK p)
    (hq : SufOK q) : SufOK (prefixC p q) := by
  intro i rem v h
  exact sufok_pair (sufok_many (sufok_w hp)) hq _ _ _ h

theorem sufok_boxed {p : Parser R} (hp : SufOK p) : SufOK (boxed p) :=
  sufok_map hp _

theorem sufok_double : SufOK double := by
  intro i rem v h
  have hd : SufOK (fun j => take_while (fun c => c.isDigit) j) :=
    fun j rem v hj => sufok_take_while _ j rem v hj
  have hsign : SufOK (fun j => opt (either (tag ['+']) (tag ['-'])) j) :=
    fun j rem v hj =>
      sufok_opt (sufok_either (sufok_tag _) (sufok_tag _)) j rem v hj
  exact sufok_map_res (sufok_recognize (sufok_trio hsign
    (sufok_either
      (sufok_value (sufok_pair hd (sufok_opt (sufok_pair (sufok_tag _)
        (sufok_opt hd)))) _)
      (sufok_value (sufok_pair (sufok_tag _) hd) _))
    (sufok_opt (sufok_trio (sufok_either (sufok_tag _) (sufok_tag _))
      hsign hd)))) _ i rem v h

/-! ## Deep embedding of the public combinator surface

A `Comb A` is a parser built from the public constructors of the library:
every primitive matcher, transform, structural, alternation and repetition
combinator, and the derived `double` grammar.  `eval` sends it to its
semantic parser; this lets "every parser built from the public combinators"
be quantified as a plain universal over `Comb`. -/

mutual

inductive Comb : Type → Type 1 where
  | tag : List Char → Comb (List Char)
  | value : {A B : Type} → Comb A → B → Comb B
  | map : {A B : Type} → Comb A → (A → B) → Comb B
  | map_res : {A B : Type} → Comb A → (A → Option B) → Comb B
  | opt : {A : Type} → Comb A → Comb (Option A)
  | pair : {A B : Type} → Comb A → Comb B → Comb (A × B)
  | trio : {A B C : Type} → Comb A → Comb B → Comb C → Comb (A × B × C)
  | right : {A B : Type} → Comb A → Comb B → Comb B
  | left : {A B : Type} → Comb A → Comb B → Comb A
  | middle : {A B C : Type} → Comb A → Comb B → Comb C → Comb B
  | outer : {A B C : Type} → Comb A → Comb B → Comb C → Comb (A × C)
  | either : {A : Type} → Comb A → Comb A → Comb A
  | choice : {A : Type} → CombList A → Comb A
  | take_while : (Char → Bool) → Comb (List Char)
  | take_until : List Char → Comb (List Char)
  | peek : {A : Type} → Comb A → Comb A
  | recognize : {A : Type} → Comb A → Comb (List Char)
  | check : {A : Type} → Comb A → (A → Bool) → Comb A
  | many : {A : Type} → Comb A → Comb (List A)
  | chain : {A B : Type} → Comb A → Comb B → Comb (List B)
  | infixC : {A B : Type} → Comb A → Comb B → Comb (A × List (B × A))
  | prefixC : {A B : Type} → Comb A → Comb B → Comb (List A × B)
  | boxed : {A : Type} → Comb A → Comb A
  | eoi : Comb (List Char)
  | whitespace : Comb (List Char)
  | w : {A : Type} → Comb A → Comb A
  | double : Comb ℚ

/-- Ordered collection of embedded combinators (the argument of `choice`). -/
inductive CombList : Type → Type 1 where
  | nil : {A : Type} → CombList A
  | cons : {A : Type} → Comb A → CombList A → CombList A

end

mutual

/-- Semantics of an embedded combinator tree. -/
def eval : {A : Type} → Comb A → Parser A
  | _, .tag t => tag t
  | _, .value p v => value (eval p) v
  | _, .map p f => map (eval p) f
  | _, .map_res p f => map_res (eval p) f
  | _, .opt p => opt (eval p)
  | _, .pair a b => pair (eval a) (eval b)
  | _, .trio a b c => trio (eval a) (eval b) (eval c)
  | _, .right a b => right (eval a) (eval b)
  | _, .left a b => left (eval a) (eval b)
  | _, .middle a b c => middle (eval a) (eval b) (eval c)
  | _, .outer a b c => outer (eval a) (eval b) (eval c)
  | _, .either a b => either (eval a) (eval b)
  | _, .choice ps => choice (evalList ps)
  | _, .take_while p => take_while p
  | _, .take_until t => take_until t
  | _, .peek p => peek (eval p)
  | _, .recognize p => recognize (eval p)
  | _, .check p f => check (eval p) f
  | _, .many p => many (eval p)
  | _, .chain sep p => chain (eval sep) (eval p)
  | _, .infixC p o => infixC (eval p) (eval o)
  | _, .prefixC p q => prefixC (eval p) (eval q)
  | _, .boxed p => boxed (eval p)
  | _, .eoi => eoi
  | _, .whitespace => whitespace
  | _, .w p => w (eval p)
  | _, .double => double

/-- Semantics of an ordered collection of embedded combinators. -/
def evalList : {A : Type} → CombList A → List (Parser A)
  | _, .nil => []
  | _, .cons c cs => eval c :: evalList cs

end

mutual

/-- Every embedded combinator satisfies the suffix invariant I1. -/
theorem eval_sufok {A : Type} (c : Comb A) : SufOK (eval c) := by
  match c with
  | .tag t => exact sufok_tag t
  | .value p v => exact sufok_value (eval_sufok p) v
  | .map p f => exact sufok_map (eval_sufok p) f
  | .map_res p f => exact sufok_map_res (eval_sufok p) f
  | .opt p => exact sufok_opt (eval_sufok p)
  | .pair a b => exact sufok_pair (eval_sufok a) (eval_sufok b)
  | .trio a b c => exact sufok_trio (eval_sufok a) (eval_sufok b) (eval_sufok c)
  | .right a b => exact sufok_right (eval_sufok a) (eval_sufok b)
  | .left a b => exact sufok_left (eval_sufok a) (eval_sufok b)
  | .middle a b c =>
    exact sufok_middle (eval_sufok a) (eval_sufok b) (eval_sufok c)
  | .outer a b c =>
    exact sufok_outer (eval_sufok a) (eval_sufok b) (eval_sufok c)
  | .either a b => exact sufok_either (eval_sufok a) (eval_sufok b)
  | .choice ps => exact sufok_choice (evalList_sufok ps)
  | .take_while p => exact sufok_take_while p
  | .take_until t => exact sufok_take_until t
  | .peek p => exact sufok_peek
  | .recognize p => exact sufok_recognize (eval_sufok p)
  | .check p f => exact sufok_check (eval_sufok p) f
  | .many p => exact sufok_many (eval_sufok p)
  | .chain sep p => exact sufok_chain (eval_sufok sep) (eval_sufok p)
  | .infixC p o => exact sufok_infixC (eval_sufok p) (eval_sufok o)
  | .prefixC p q => exact sufok_prefixC (eval_sufok p) (eval_sufok q)
  | .boxed p => exact sufok_boxed (eval_sufok p)
  | .eoi => exact sufok_eoi
  | .whitespace => exact sufok_whitespace
  | .w p => exact sufok_w (eval_sufok p)
  | .double => exact sufok_double

/-- Every member of an embedded collection satisfies the suffix invariant. -/
theorem evalList_sufok {A : Type} (ps : CombList A) :
    ∀ q ∈ evalList ps, SufOK q := by
  match ps with
  | .nil => intro q hq; cases hq
  | .cons c cs =>
    intro q hq
    simp only [evalList, List.mem_cons] at hq
    cases hq with
    | inl h => exact h ▸ eval_sufok c
    | inr h => exact evalList_sufok cs q h

end

/-! ## Never-failing combinators -/

/-- Inverting a failing `pmap`. -/
theorem pmap_eq_err {x : Option (PRes A)} {f : List Char → A → PRes B}
    {j : List Char} {e : ParserError} :
    pmap x f = some (.err j e) ↔
      x = some (.err j e) ∨ ∃ j2 r, x = some (.ok j2 r) ∧ f j2 r = .err j e := by
  cases x with
  | none => simp [pmap]
  | some res =>
    cases res with
    | ok j2 r =>
      simp only [pmap, Option.map_some', Option.some.injEq, PRes.ok.injEq]
      constructor
      · intro h
        exact Or.inr ⟨j2, r, ⟨rfl, rfl⟩, h⟩
      · rintro (h | ⟨j3, r3, ⟨rfl, rfl⟩, h⟩)
        · cases h
        · exact h
    | err j2 e2 => simp [pmap, eq_comm]

theorem opt_ne_err {p : Parser A} (i j : List Char) (e : ParserError) :
    opt p i ≠ some (.err j e) := by
  simp only [opt]
  cases hx : p i with
  | none => simp
  | some res => cases res <;> simp

theorem opt_inner_err {p : Parser A} {i j : List Char} {e : ParserError}
    (h : p i = some (.err j e)) : opt p i = some (.ok i none) := by
  simp [opt, h]

theorem manyRun_ne_err {p : Parser R} :
    ∀ fuel i j e, manyRun p fuel i ≠ some (.err j e) := by
  intro fuel
  induction fuel with
  | zero => intro i j e h; cases h
  | succ n ih =>
    intro i j e h
    simp only [manyRun] at h
    split at h
    · cases h
    · cases h
    · split at h
      · rw [pmap_eq_err] at h
        cases h with
        | inl h => exact ih _ _ _ h
        | inr h =>
          obtain ⟨j2, r, _, he⟩ := h
          cases he
      · cases h

theorem many_ne_err {p : Parser R} (i j : List Char) (e : ParserError) :
    many p i ≠ some (.err j e) :=
  manyRun_ne_err _ i j e

theorem many_inner_err {p : Parser R} {i j : List Char} {e : ParserError}
    (h : p i = some (.err j e)) : many p i = some (.ok i []) := by
  simp [many, manyRun, h]

theorem chain_ne_err {sep : Parser A} {p : Parser B} (i j : List Char)
    (e : ParserError) : chain sep p i ≠ some (.err j e) := by
  simp only [chain]
  split <;> simp

theorem chain_inner_err {sep : Parser A} {p : Parser B} {i j : List Char}
    {e : ParserError} (h : p i = some (.err j e)) :
    chain sep p i = some (.ok i []) := by
  simp [chain, map, pair, pbind, pmap, h]

/-! ## Characterization of `take_while` via `takeWhile`/`dropWhile` -/

theorem findIdxP_none (p : Char → Bool) :
    ∀ i, findIdxP (fun c => !p c) i = none →
      i.takeWhile p = i ∧ i.dropWhile p = [] := by
  intro i
  induction i with
  | nil => intro; simp
  | cons c t ih =>
    intro h
    simp only [findIdxP] at h
    split at h
    · cases h
    · next hc =>
      have hpc : p c = true := by
        cases hv : p c
        · rw [hv] at hc; simp at hc
        · rfl
      simp only [Option.map_eq_none'] at h
      obtain ⟨h1, h2⟩ := ih h
      simp [List.takeWhile_cons, List.dropWhile_cons, hpc, h1, h2]

theorem findIdxP_some (p : Char → Bool) :
    ∀ i x, findIdxP (fun c => !p c) i = some x →
      i.takeWhile p = i.take x ∧ i.dropWhile p = i.drop x ∧ x < i.length ∧
        (i.takeWhile p = [] ↔ x = 0) := by
  intro i
  induction i with
  | nil => intro x h; cases h
  | cons c t ih =>
    intro x h
    simp only [findIdxP] at h
    split at h
    · next hc =>
      cases h
      have hpc : p c = false := by
        cases hv : p c
        · rfl
        · rw [hv] at hc; cases hc
      simp [List.takeWhile_cons, List.dropWhile_cons, hpc]
    · next hc =>
      have hpc : p c = true := by
        cases hv : p c
        · rw [hv] at hc; simp at hc
        · rfl
      simp only [Option.map_eq_some'] at h
      obtain ⟨y, hy, rfl⟩ := h
      obtain ⟨h1, h2, h3, _⟩ := ih y hy
      refine ⟨?_, ?_, ?_, ?_⟩
      · simp [List.takeWhile_cons, hpc, h1]
      · simp [List.dropWhile_cons, hpc, h2]
      · simp only [List.length_cons]
        omega
      · simp [List.takeWhile_cons, hpc]

/-! ## Characterization of `findSub`: first occurrence of a pattern -/

theorem findSub_none {pat : List Char} :
    ∀ i, findSub pat i = none → ∀ x, ¬ pat.isPrefixOf (i.drop x) := by
  intro i
  induction i with
  | nil =>
    intro h x
    simp only [findSub] at h
    split at h
    · cases h
    · next hc => simpa using hc
  | cons c t ih =>
    intro h x
    simp only [findSub] at h
    split at h
    · cases h
    · next hc =>
      simp only [Option.map_eq_none'] at h
      match x with
      | 0 => simpa using hc
      | y + 1 => exact ih h y

theorem findSub_some {pat : List Char} :
    ∀ i x, findSub pat i = some x →
      pat.isPrefixOf (i.drop x) ∧ ∀ y, y < x → ¬ pat.isPrefixOf (i.drop y) := by
  intro i
  induction i with
  | nil =>
    intro x h
    simp only [findSub] at h
    split at h
    · next hc =>
      cases h
      exact ⟨hc, fun y hy => absurd hy (Nat.not_lt_zero y)⟩
    · cases h
  | cons c t ih =>
    intro x h
    simp only [findSub] at h
    split at h
    · next hc =>
      cases h
      exact ⟨hc, fun y hy => absurd hy (Nat.not_lt_zero y)⟩
    · next hc =>
      simp only [Option.map_eq_some'] at h
      obtain ⟨y, hy, rfl⟩ := h
      obtain ⟨h1, h2⟩ := ih y hy
      refine ⟨h1, ?_⟩
      intro z hz
      match z with
      | 0 => simpa using hc
      | u + 1 => exact h2 u (by omega)

/-! ## Characterization of `choice` -/

theorem choiceGo_all_err {ps : List (Parser R)} {i : List Char}
    (h : ∀ p ∈ ps, ∃ j e, p i = some (.err j e)) :
    choiceGo ps i = some (.err i .Choice) := by
  induction ps with
  | nil => rfl
  | cons p rest ih =>
    obtain ⟨j, e, hp⟩ := h p (by simp)
    simp only [choiceGo, hp, Option.some_bind]
    exact ih (fun q hq => h q (by simp [hq]))

theorem choiceGo_first_ok {l1 : List (Parser R)} {p : Parser R}
    {l2 : List (Parser R)} {i i2 : List Char} {r : R}
    (h1 : ∀ q ∈ l1, ∃ j e, q i = some (.err j e))
    (h2 : p i = some (.ok i2 r)) :
    choiceGo (l1 ++ p :: l2) i = some (.ok i2 r) := by
  induction l1 with
  | nil => simp [choiceGo, h2]
  | cons q rest ih =>
    obtain ⟨j, e, hq⟩ := h1 q (by simp)
    simp only [List.cons_append, choiceGo, hq, Option.some_bind]
    exact ih (fun q2 hq2 => h1 q2 (by simp [hq2]))

/-! ## Termination analysis

`Total p` says an invocation of `p` always returns; `Consuming p` says a
successful invocation strictly shrinks the input.  `loopState` traces the
`while let Ok` loop of `many` directly: the Rust loop on input `i`
terminates exactly when some iterate reaches an input on which the inner
parser fails. -/

def Total (p : Parser A) : Prop := ∀ i, p i ≠ none

def Consuming (p : Parser A) : Prop :=
  ∀ i rem v, p i = some (.ok rem v) → rem.length < i.length

/-- Input held by the `many` loop after `n` successful iterations of the
inner parser (`none` once an iteration did not succeed). -/
def loopState (p : Parser A) : Nat → List Char → Option (List Char)
  | 0, i => some i
  | n + 1, i =>
    match p i with
    | some (.ok i2 _) => loopState p n i2
    | _ => none

theorem pmap_ne_none {x : Option (PRes A)} {f : List Char → A → PRes B}
    (hx : x ≠ none) : pmap x f ≠ none := by
  cases x with
  | none => exact absurd rfl hx
  | some res => cases res <;> simp [pmap]

theorem pbind_ne_none {x : Option (PRes A)} {f : List Char → A → Option (PRes B)}
    (hx : x ≠ none) (hf : ∀ j r, f j r ≠ none) : pbind x f ≠ none := by
  cases x with
  | none => exact absurd rfl hx
  | some res =>
    cases res with
    | ok j r => simpa [pbind] using hf j r
    | err j e => simp [pbind]

theorem total_tag (t : List Char) : Total (tag t) := by
  intro i
  simp [tag]

theorem total_value {p : Parser A} (hp : Total p) (v : B) : Total (value p v) :=
  fun i => pmap_ne_none (hp i)

theorem total_map {p : Parser A} (hp : Total p) (f : A → B) : Total (map p f) :=
  fun i => pmap_ne_none (hp i)

theorem total_map_res {p : Parser A} (hp : Total p) (f : A → Option B) :
    Total (map_res p f) :=
  fun i => pmap_ne_none (hp i)

theorem total_opt {p : Parser A} (hp : Total p) : Total (opt p) := by
  intro i
  simp only [opt]
  cases hx : p i with
  | none => exact absurd hx (hp i)
  | some res => cases res <;> simp

theorem total_pair {a : Parser A} {b : Parser B} (ha : Total a) (hb : Total b) :
    Total (pair a b) :=
  fun i => pbind_ne_none (ha i) (fun j _ => pmap_ne_none (hb j))

theorem total_trio {a : Parser A} {b : Parser B} {c : Parser C}
    (ha : Total a) (hb : Total b) (hc : Total c) : Total (trio a b c) :=
  fun i => pbind_ne_none (ha i)
    (fun j _ => pbind_ne_none (hb j) (fun k _ => pmap_ne_none (hc k)))

theorem total_right {a : Parser A} {b : Parser B} (ha : Total a) (hb : Total b) :
    Total (right a b) :=
  fun i => pbind_ne_none (ha i) (fun j _ => pmap_ne_none (hb j))

theorem total_left {a : Parser A} {b : Parser B} (ha : Total a) (hb : Total b) :
    Total (left a b) :=
  fun i => pbind_ne_none (ha i) (fun j _ => pmap_ne_none (hb j))

theorem total_middle {a : Parser A} {b : Parser B} {c : Parser C}
    (ha : Total a) (hb : Total b) (hc : Total c) : Total (middle a b c) :=
  fun i => pbind_ne_none (ha i)
    (fun j _ => pbind_ne_none (hb j) (fun k _ => pmap_ne_none (hc k)))

theorem total_outer {a : Parser A} {b : Parser B} {c : Parser C}
    (ha : Total a) (hb : Total b) (hc : Total c) : Total (outer a b c) :=
  fun i => pbind_ne_none (ha i)
    (fun j _ => pbind_ne_none (hb j) (fun k _ => pmap_ne_none (hc k)))

theorem total_either {a b : Parser R} (ha : Total a) (hb : Total b) :
    Total (either a b) := by
  intro i
  simp only [either]
  cases hx : a i with
  | none => exact absurd hx (ha i)
  | some res =>
    cases res with
    | ok j r => simp
    | err j e => simpa using hb i

theorem total_choiceGo {ps : List (Parser R)} (hps : ∀ p ∈ ps, Total p) :
    ∀ i, choiceGo ps i ≠ none := by
  induction ps with
  | nil => intro i; simp [choiceGo]
  | cons p rest ih =>
    intro i
    simp only [choiceGo]
    cases hx : p i with
    | none => exact absurd hx (hps p (by simp) i)
    | some res =>
      cases res with
      | ok j r => simp
      | err j e => simpa using ih (fun q hq => hps q (by simp [hq])) i

theorem total_choice {ps : List (Parser R)} (hps : ∀ p ∈ ps, Total p) :
    Total (choice ps) :=
  fun i => total_choiceGo hps i

theorem total_take_while (p : Char → Bool) : Total (take_while p) := by
  intro i
  simp [take_while]

theorem total_take_until (t : List Char) : Total (take_until t) := by
  intro i
  simp [take_until]

theorem total_peek {p : Parser R} (hp : Total p) : Total (peek p) :=
  fun i => pmap_ne_none (hp i)

theorem total_recognize {p : Parser R} (hp : Total p) : Total (recognize p) :=
  fun i => pmap_ne_none (hp i)

theorem total_check {p : Parser R} (hp : Total p) (f : R → Bool) :
    Total (check p f) := by
  intro i
  simp only [check]
  cases hx : p i with
  | none => exact absurd hx (hp i)
  | some res => cases res <;> simp

theorem total_eoi : Total eoi := by
  intro i
  simp [eoi]

theorem total_whitespace : Total whitespace := by
  intro i
  simp [whitespace]

theorem total_w {p : Parser R} (hp : Total p) : Total (w p) :=
  total_right total_whitespace hp

theorem total_boxed {p : Parser R} (hp : Total p) : Total (boxed p) :=
  total_map hp _

theorem total_double : Total double := by
  intro i
  have hd : Total (fun j => take_while (fun c => c.isDigit) j) :=
    fun j => total_take_while _ j
  have hsign : Total (fun j => opt (either (tag ['+']) (tag ['-'])) j) :=
    fun j => total_opt (total_either (total_tag _) (total_tag _)) j
  exact total_map_res (total_recognize (total_trio hsign
    (total_either
      (total_value (total_pair hd (total_opt (total_pair (total_tag _)
        (total_opt hd)))) _)
      (total_value (total_pair (total_tag _) hd) _))
    (total_opt (total_trio (total_either (total_tag _) (total_tag _))
      hsign hd)))) _ i

/-- With a total, strictly consuming inner parser, the `many` loop always
returns: the fuel bound `i.length < fuel` is maintained along the loop. -/
theorem total_manyRun {p : Parser R} (hp : Total p) (hc : Consuming p) :
    ∀ fuel i, i.length < fuel → manyRun p fuel i ≠ none := by
  intro fuel
  induction fuel with
  | zero => intro i h; omega
  | succ n ih =>
    intro i hlen
    simp only [manyRun]
    split
    · next hx => exact absurd hx (hp i)
    · simp
    · next i2 r hx =>
      have hcons := hc i i2 r hx
      rw [if_pos hcons]
      exact pmap_ne_none (ih i2 (by omega))

theorem total_many {p : Parser R} (hp : Total p) (hc : Consuming p) :
    Total (many p) :=
  fun i => total_manyRun hp hc _ i (Nat.lt_succ_self _)

mutual

/-- Embedded combinators containing no repetition combinator
(`many`, `chain`, `infix`, `prefix`). -/
inductive RepFree : {A : Type} → Comb A → Prop where
  | tag (t : List Char) : RepFree (.tag t)
  | value {A B : Type} (p : Comb A) (v : B) : RepFree p → RepFree (.value p v)
  | map {A B : Type} (p : Comb A) (f : A → B) : RepFree p → RepFree (.map p f)
  | map_res {A B : Type} (p : Comb A) (f : A → Option B) :
      RepFree p → RepFree (.map_res p f)
  | opt {A : Type} (p : Comb A) : RepFree p → RepFree (.opt p)
  | pair {A B : Type} (a : Comb A) (b : Comb B) :
      RepFree a → RepFree b → RepFree (.pair a b)
  | trio {A B C : Type} (a : Comb A) (b : Comb B) (c : Comb C) :
      RepFree a → RepFree b → RepFree c → RepFree (.trio a b c)
  | right {A B : Type} (a : Comb A) (b : Comb B) :
      RepFree a → RepFree b → RepFree (.right a b)
  | left {A B : Type} (a : Comb A) (b : Comb B) :
      RepFree a → RepFree b → RepFree (.left a b)
  | middle {A B C : Type} (a : Comb A) (b : Comb B) (c : Comb C) :
      RepFree a → RepFree b → RepFree c → RepFree (.middle a b c)
  | outer {A B C : Type} (a : Comb A) (b : Comb B) (c : Comb C) :
      RepFree a → RepFree b → RepFree c → RepFree (.outer a b c)
  | either {A : Type} (a b : Comb A) :
      RepFree a → RepFree b → RepFree (.either a b)
  | choice {A : Type} (ps : CombList A) :
      RepFreeList ps → RepFree (.choice ps)
  | take_while (p : Char → Bool) : RepFree (.take_while p)
  | take_until (t : List Char) : RepFree (.take_until t)
  | peek {A : Type} (p : Comb A) : RepFree p → RepFree (.peek p)
  | recognize {A : Type} (p : Comb A) : RepFree p → RepFree (.recognize p)
  | check {A : Type} (p : Comb A) (f : A → Bool) :
      RepFree p → RepFree (.check p f)
  | boxed {A : Type} (p : Comb A) : RepFree p → RepFree (.boxed p)
  | eoi : RepFree .eoi
  | whitespace : RepFree .whitespace
  | w {A : Type} (p : Comb A) : RepFree p → RepFree (.w p)
  | double : RepFree .double

/-- All members of an embedded collection are repetition-free. -/
inductive RepFreeList : {A : Type} → CombList A → Prop where
  | nil {A : Type} : RepFreeList (.nil : CombList A)
  | cons {A : Type} (c : Comb A) (cs : CombList A) :
      RepFree c → RepFreeList cs → RepFreeList (.cons c cs)

end

mutual

/-- A repetition-free embedded combinator always returns. -/
theorem evalRepFree_total {A : Type} {c : Comb A} (h : RepFree c) :
    Total (eval c) := by
  match c, h with
  | _, .tag t => exact total_tag t
  | _, .value p v hp => exact total_value (evalRepFree_total hp) v
  | _, .map p f hp => exact total_map (evalRepFree_total hp) f
  | _, .map_res p f hp => exact total_map_res (evalRepFree_total hp) f
  | _, .opt p hp => exact total_opt (evalRepFree_total hp)
  | _, .pair a b ha hb =>
    exact total_pair (evalRepFree_total ha) (evalRepFree_total hb)
  | _, .trio a b c2 ha hb hc =>
    exact total_trio (evalRepFree_total ha) (evalRepFree_total hb)
      (evalRepFree_total hc)
  | _, .right a b ha hb =>
    exact total_right (evalRepFree_total ha) (evalRepFree_total hb)
  | _, .left a b ha hb =>
    exact total_left (evalRepFree_total ha) (evalRepFree_total hb)
  | _, .middle a b c2 ha hb hc =>
    exact total_middle (evalRepFree_total ha) (evalRepFree_total hb)
      (evalRepFree_total hc)
  | _, .outer a b c2 ha hb hc =>
    exact total_outer (evalRepFree_total ha) (evalRepFree_total hb)
      (evalRepFree_total hc)
  | _, .either a b ha hb =>
    exact total_either (evalRepFree_total ha) (evalRepFree_total hb)
  | _, .choice ps hps => exact total_choice (evalRepFreeList_total hps)
  | _, .take_while p => exact total_take_while p
  | _, .take_until t => exact total_take_until t
  | _, .peek p hp => exact total_peek (evalRepFree_total hp)
  | _, .recognize p hp => exact total_recognize (evalRepFree_total hp)
  | _, .check p f hp => exact total_check (evalRepFree_total hp) f
  | _, .boxed p hp => exact total_boxed (evalRepFree_total hp)
  | _, .eoi => exact total_eoi
  | _, .whitespace => exact total_whitespace
  | _, .w p hp => exact total_w (evalRepFree_total hp)
  | _, .double => exact total_double

/-- All members of a repetition-free embedded collection always return. -/
theorem evalRepFreeList_total {A : Type} {ps : CombList A}
    (h : RepFreeList ps) : ∀ q ∈ evalList ps, Total q := by
  match ps, h with
  | _, .nil => intro q hq; cases hq
  | _, .cons c cs hc hcs =>
    intro q hq
    simp only [evalList, List.mem_cons] at hq
    cases hq with
    | inl he => exact he ▸ evalRepFree_total hc
    | inr he => exact evalRepFreeList_total hcs q he

end

theorem total_chain {sep : Parser A} {p : Parser B} (hs : Total sep)
    (hp : Total p) (hc : Consuming (right sep p)) : Total (chain sep p) := by
  intro i
  have hbody : map (pair p (left (many (right sep p)) (opt sep)))
      (fun ab => ab.1 :: ab.2) i ≠ none :=
    total_map (total_pair hp (total_left (total_many (total_right hs hp) hc)
      (total_opt hs))) _ i
  simp only [chain]
  split
  · simp
  · simp
  · next hbad => exact absurd hbad hbody

/-! ## The claims -/

/-- Claim C1: for every parser built from the public combinators and every
input `I`, if the parser succeeds with remaining view `rem` then `rem` is a
suffix of `I` (so `len(rem) ≤ len(I)`), and `recognize` of that parser, when
it succeeds, returns exactly the first `len(I) - len(rem)` characters of
`I`, where `rem` is the remaining view the parser produced. -/
theorem combinator_suffix_invariant {A : Type} (c : Comb A) (i : List Char) :
    (∀ rem v, eval c i = some (.ok rem v) →
      rem <:+ i ∧ rem.length ≤ i.length) ∧
    (∀ rem rv, eval (Comb.recognize c) i = some (.ok rem rv) →
      rv = i.take (i.length - rem.length)) := by
  constructor
  · intro rem v h
    have hs := eval_sufok c i rem v h
    exact ⟨hs, hs.length_le⟩
  · intro rem rv h
    simp only [eval, recognize, pmap_eq_ok] at h
    obtain ⟨j, r, hj, he⟩ := h
    cases he
    rfl

/-- Witness for C1 at `tag "ab"` on `"abc"`. -/
theorem combinator_suffix_invariant_witness :
    (['c'] <:+ "abc".toList ∧ (['c'] : List Char).length ≤ "abc".toList.length) ∧
    "ab".toList = "abc".toList.take ("abc".toList.length - (['c'] : List Char).length) := by
  constructor
  · exact (combinator_suffix_invariant (Comb.tag "ab".toList) "abc".toList).1
      ['c'] "ab".toList (by simp only [eval]; decide)
  · exact (combinator_suffix_invariant (Comb.tag "ab".toList) "abc".toList).2
      ['c'] "ab".toList (by simp only [eval]; decide)

/-- Counterexample to C2 as stated: the inner parser `pair(tag "a", tag "b")`
on `"ac"` fails with its own kind `Tag` at the advanced position `"c"`, but
`check` of it returns `Check` at the original view `"ac"` — the inner
failure is not returned unchanged. -/
theorem check_propagation_counterexample :
    check (pair (tag "a".toList) (tag "b".toList)) (fun _ => true) "ac".toList
      = some (.err "ac".toList .Check) ∧
    pair (tag "a".toList) (tag "b".toList) "ac".toList
      = some (.err "c".toList .Tag) ∧
    (some (.err "ac".toList ParserError.Check) :
        Option (PRes (List Char × List Char)))
      ≠ some (.err "c".toList ParserError.Tag) := by
  refine ⟨by decide, by decide, by decide⟩

/-- Claim C2 amended: on inner success with the predicate satisfied, `check`
returns the same success; on inner success with the predicate refused,
`check` fails with `Check` at the original input view; and on inner failure,
`check` also fails with `Check` at the original input view (the inner
failure is replaced, not propagated). -/
theorem check_behavior {R : Type} (p : Parser R) (f : R → Bool) (i : List Char) :
    (∀ i2 r, p i = some (.ok i2 r) → f r = true →
      check p f i = some (.ok i2 r)) ∧
    (∀ i2 r, p i = some (.ok i2 r) → f r = false →
      check p f i = some (.err i .Check)) ∧
    (∀ j e, p i = some (.err j e) → check p f i = some (.err i .Check)) := by
  refine ⟨?_, ?_, ?_⟩
  · intro i2 r h hf
    simp [check, h, hf]
  · intro i2 r h hf
    simp [check, h, hf]
  · intro j e h
    simp [check, h]

/-- Witness for the amended C2 at the doc example
`check(take_until("-"), |a| a.len() == 3)` on `"yes-"` and `"no-"`. -/
theorem check_behavior_witness :
    check (take_until "-".toList) (fun a => a.length == 3) "yes-".toList
      = some (.ok "-".toList "yes".toList) ∧
    check (take_until "-".toList) (fun a => a.length == 3) "no-".toList
      = some (.err "no-".toList .Check) := by
  constructor
  · exact (check_behavior (take_until "-".toList) (fun a => a.length == 3)
      "yes-".toList).1 "-".toList "yes".toList (by decide) (by decide)
  · exact (check_behavior (take_until "-".toList) (fun a => a.length == 3)
      "no-".toList).2.1 "-".toList "no".toList (by decide) (by decide)

/-- Claim C3: `opt`, `many` and `chain` never return a `Failure` outcome;
when the inner parser fails, `opt` succeeds with `none` and the original
input unconsumed, and `many` (before any iteration collected anything)
succeeds with the empty sequence and the original input. -/
theorem absorbers_never_fail :
    (∀ (A : Type) (p : Parser A) (i j : List Char) (e : ParserError),
      opt p i ≠ some (.err j e)) ∧
    (∀ (A : Type) (p : Parser A) (i j : List Char) (e : ParserError),
      p i = some (.err j e) → opt p i = some (.ok i none)) ∧
    (∀ (A : Type) (p : Parser A) (i j : List Char) (e : ParserError),
      many p i ≠ some (.err j e)) ∧
    (∀ (A : Type) (p : Parser A) (i j : List Char) (e : ParserError),
      p i = some (.err j e) → many p i = some (.ok i [])) ∧
    (∀ (A B : Type) (sep : Parser A) (p : Parser B) (i j : List Char)
      (e : ParserError), chain sep p i ≠ some (.err j e)) := by
  refine ⟨?_, ?_, ?_, ?_, ?_⟩
  · intro A p i j e
    exact opt_ne_err i j e
  · intro A p i j e h
    exact opt_inner_err h
  · intro A p i j e
    exact many_ne_err i j e
  · intro A p i j e h
    exact many_inner_err h
  · intro A B sep p i j e
    exact chain_ne_err i j e

/-- Witness for C3 at `tag "1"` on `"2"`. -/
theorem absorbers_never_fail_witness :
    opt (tag "1".toList) "2".toList = some (.ok "2".toList none) ∧
    many (tag "1".toList) "2".toList = some (.ok "2".toList []) := by
  constructor
  · exact absorbers_never_fail.2.1 _ (tag "1".toList) "2".toList "2".toList
      .Tag (by decide)
  · exact absorbers_never_fail.2.2.2.1 _ (tag "1".toList) "2".toList
      "2".toList .Tag (by decide)

/-- Counterexample to C4 as stated: `many(whitespace)` is built from the
public combinators, yet on the empty input its invocation never returns.
In the embedding `eval` yields `none` (the divergence marker); from first
principles, the loop state after every number of iterations is again the
empty input, on which `whitespace` again succeeds without consuming, so the
`while let Ok` loop of `many` never encounters the failure that would let
it stop. -/
theorem many_whitespace_divergence :
    eval (Comb.many Comb.whitespace) [] = none ∧
    (∀ n, loopState whitespace n [] = some []) ∧
    whitespace [] = some (.ok [] []) := by
  refine ⟨by simp only [eval]; rfl, ?_, rfl⟩
  intro n
  induction n with
  | zero => rfl
  | succ k ih => exact ih

/-- Claim C4 amended: invoking a parser built from the public combinators
terminates provided every repetition body strictly consumes on success:
every repetition-free combinator terminates on every input; `many p`
terminates whenever `p` always returns and strictly consumes on success;
and `chain sep p` terminates whenever `sep` and `p` always return and the
sequence `sep`-then-`p` strictly consumes on success.  (Without the
consumption proviso the claim fails: see the `many(whitespace)`
counterexample.) -/
theorem termination_amended :
    (∀ (A : Type) (c : Comb A), RepFree c → ∀ i, eval c i ≠ none) ∧
    (∀ (R : Type) (p : Parser R), Total p → Consuming p →
      ∀ i, many p i ≠ none) ∧
    (∀ (A B : Type) (sep : Parser A) (p : Parser B),
      Total sep → Total p → Consuming (right sep p) →
      ∀ i, chain sep p i ≠ none) := by
  refine ⟨?_, ?_, ?_⟩
  · intro A c h i
    exact evalRepFree_total h i
  · intro R p hp hc i
    exact total_many hp hc i
  · intro A B sep p hs hp hc i
    exact total_chain hs hp hc i

/-- Witness for the amended C4: `many (tag "a")` returns on `"aa"`. -/
theorem termination_amended_witness : many (tag ['a']) "aa".toList ≠ none := by
  refine termination_amended.2.1 _ (tag ['a']) (fun i => by simp [tag])
    ?_ "aa".toList
  intro i rem v h
  simp only [tag, Option.some.injEq] at h
  split at h
  · next hpre =>
    cases h
    have h1 : 1 ≤ i.length := by
      cases i with
      | nil => simp [List.isPrefixOf] at hpre
      | cons c t => simp
    simp only [List.length_drop, List.length_cons, List.length_nil]
    omega
  · cases h

/-- Claim C5: `take_while p` consumes the maximal prefix on which every
character satisfies `p`: an empty maximal prefix (including on empty input)
fails with `TakeWhile` and the input unconsumed; a predicate holding
through the end of a non-empty input succeeds consuming everything;
otherwise it succeeds with the matched prefix as value, the rest
remaining. -/
theorem take_while_maximal (p : Char → Bool) (i : List Char) :
    (i.takeWhile p = [] → take_while p i = some (.err i .TakeWhile)) ∧
    (i ≠ [] → i.takeWhile p = i → take_while p i = some (.ok [] i)) ∧
    (i.takeWhile p ≠ [] → i.takeWhile p ≠ i →
      take_while p i = some (.ok (i.dropWhile p) (i.takeWhile p))) := by
  refine ⟨?_, ?_, ?_⟩
  · intro hempty
    cases hf : findIdxP (fun c => !p c) i with
    | none =>
      have h1 := (findIdxP_none p i hf).1
      have hi : i = [] := by rw [← h1, hempty]
      subst hi
      rfl
    | some x =>
      have h4 := (findIdxP_some p i x hf).2.2.2
      have hx : x = 0 := h4.mp hempty
      subst hx
      simp [take_while, hf]
  · intro hne hall
    cases hf : findIdxP (fun c => !p c) i with
    | none =>
      have hlen : i.length > 0 := List.length_pos.mpr hne
      simp [take_while, hf, hlen, List.drop_length]
    | some x =>
      obtain ⟨h1, h2, h3, h4⟩ := findIdxP_some p i x hf
      have : i.length = (i.take x).length := by rw [← h1, hall]
      simp only [List.length_take] at this
      omega
  · intro hne hnall
    cases hf : findIdxP (fun c => !p c) i with
    | none =>
      exact absurd (findIdxP_none p i hf).1 hnall
    | some x =>
      obtain ⟨h1, h2, h3, h4⟩ := findIdxP_some p i x hf
      match x, hf with
      | 0, hf => exact absurd (h4.mpr rfl) hne
      | y + 1, hf =>
        simp only [take_while, hf]
        rw [h1, h2]

/-- Witness for C5: the digit predicate on `"abc"` (empty prefix), on
`"123"` (runs through the end) and on `"12a"` (proper prefix). -/
theorem take_while_maximal_witness :
    take_while (fun c => c.isDigit) "abc".toList
      = some (.err "abc".toList .TakeWhile) ∧
    take_while (fun c => c.isDigit) "123".toList
      = some (.ok [] "123".toList) ∧
    take_while (fun c => c.isDigit) "12a".toList
      = some (.ok ['a'] "12".toList) := by
  refine ⟨?_, ?_, ?_⟩
  · exact (take_while_maximal (fun c => c.isDigit) "abc".toList).1 (by decide)
  · exact (take_while_maximal (fun c => c.isDigit) "123".toList).2.1
      (by decide) (by decide)
  · exact (take_while_maximal (fun c => c.isDigit) "12a".toList).2.2
      (by decide) (by decide)

/-- Claim C6: `chain(SEP, P)` never fails; if the very first `P` fails it
succeeds with the empty sequence and the original input unconsumed; and on
the concrete examples, `chain(tag ","), tag("1"))` consumes `"1,1,1"` and
`"1,1,1,"` entirely yielding `["1","1","1"]`, and yields `[]` with `"2"`
unconsumed. -/
theorem chain_tolerant :
    (∀ (A B : Type) (sep : Parser A) (p : Parser B) (i j : List Char)
      (e : ParserError), chain sep p i ≠ some (.err j e)) ∧
    (∀ (A B : Type) (sep : Parser A) (p : Parser B) (i j : List Char)
      (e : ParserError), p i = some (.err j e) →
      chain sep p i = some (.ok i [])) ∧
    chain (tag ",".toList) (tag "1".toList) "1,1,1".toList
      = some (.ok [] ["1".toList, "1".toList, "1".toList]) ∧
    chain (tag ",".toList) (tag "1".toList) "1,1,1,".toList
      = some (.ok [] ["1".toList, "1".toList, "1".toList]) ∧
    chain (tag ",".toList) (tag "1".toList) "2".toList
      = some (.ok "2".toList []) := by
  refine ⟨?_, ?_, by decide, by decide, by decide⟩
  · intro A B sep p i j e
    exact chain_ne_err i j e
  · intro A B sep p i j e h
    exact chain_inner_err h

/-- Witness for C6: the first-element failure case at
`chain(tag(","), tag("1"))` on `"2"`. -/
theorem chain_tolerant_witness :
    chain (tag ",".toList) (tag "1".toList) "2".toList
      = some (.ok "2".toList []) := by
  exact chain_tolerant.2.1 _ _ (tag ",".toList) (tag "1".toList) "2".toList
    "2".toList .Tag (by decide)

/-- Claim C7: `take_until t` never fails; if `t` occurs in the input it
succeeds with everything before the first occurrence as value and the
remaining view still starting at the occurrence; if `t` does not occur it
succeeds with an empty value and the entire input left unconsumed. -/
theorem take_until_first_occurrence (t i : List Char) :
    (∀ j e, take_until t i ≠ some (.err j e)) ∧
    ((∀ x, ¬ t.isPrefixOf (i.drop x)) → take_until t i = some (.ok i [])) ∧
    (∀ x, t.isPrefixOf (i.drop x) → (∀ y, y < x → ¬ t.isPrefixOf (i.drop y)) →
      take_until t i = some (.ok (i.drop x) (i.take x))) := by
  refine ⟨?_, ?_, ?_⟩
  · intro j e
    simp only [take_until]
    split <;> simp
  · intro hno
    cases hf : findSub t i with
    | none => simp [take_until, hf]
    | some x => exact absurd (findSub_some i x hf).1 (hno x)
  · intro x hx hmin
    cases hf : findSub t i with
    | none => exact absurd hx (findSub_none i hf x)
    | some y =>
      obtain ⟨h1, h2⟩ := findSub_some i y hf
      have hxy : x = y := by
        rcases Nat.lt_trichotomy x y with h | h | h
        · exact absurd hx (h2 x h)
        · exact h
        · exact absurd h1 (hmin y h)
      subst hxy
      simp [take_until, hf]

/-- Witness for C7: the doc examples, `" combo breaker"` inside
`"123 combo breaker"` (found at index 3) and inside `"456"` (absent). -/
theorem take_until_first_occurrence_witness :
    take_until " combo breaker".toList "123 combo breaker".toList
      = some (.ok " combo breaker".toList "123".toList) ∧
    take_until " combo breaker".toList "456".toList
      = some (.ok "456".toList []) := by
  constructor
  · exact (take_until_first_occurrence " combo breaker".toList
      "123 combo breaker".toList).2.2 3 (by decide)
      (by intro y hy; interval_cases y <;> decide)
  · exact (take_until_first_occurrence " combo breaker".toList
      "456".toList).2.1 (by
        intro x
        match x, Nat.lt_or_ge x 3 with
        | x, .inl hlt => interval_cases x <;> decide
        | x, .inr hge =>
          have : "456".toList.drop x = [] := by
            apply List.drop_eq_nil_of_le
            simpa using hge
          rw [this]
          decide)

/-- Claim C8: `choice` tries each parser in order against the original
input and returns the outcome of the first success; if all fail, it fails
with `Choice` at the original input, discarding the individual kinds; and
on the doc examples, `choice([tag "1", tag "2", tag "3"])` succeeds on
`"2"` with value `"2"` and fails on `"4"` with `Choice`. -/
theorem choice_ordered_first_success :
    (∀ (R : Type) (ps : List (Parser R)) (i : List Char),
      (∀ p ∈ ps, ∃ j e, p i = some (.err j e)) →
      choice ps i = some (.err i .Choice)) ∧
    (∀ (R : Type) (l1 : List (Parser R)) (p : Parser R) (l2 : List (Parser R))
      (i i2 : List Char) (r : R),
      (∀ q ∈ l1, ∃ j e, q i = some (.err j e)) → p i = some (.ok i2 r) →
      choice (l1 ++ p :: l2) i = some (.ok i2 r)) ∧
    choice [tag "1".toList, tag "2".toList, tag "3".toList] "2".toList
      = some (.ok [] "2".toList) ∧
    choice [tag "1".toList, tag "2".toList, tag "3".toList] "4".toList
      = some (.err "4".toList .Choice) := by
  refine ⟨?_, ?_, by decide, by decide⟩
  · intro R ps i h
    exact choiceGo_all_err h
  · intro R l1 p l2 i i2 r h1 h2
    exact choiceGo_first_ok h1 h2

/-- Witness for C8: the success of the second alternative on `"2"`,
obtained through the ordered-first-success property. -/
theorem choice_ordered_first_success_witness :
    choice ([tag "1".toList] ++ tag "2".toList :: [tag "3".toList]) "2".toList
      = some (.ok [] "2".toList) := by
  refine choice_ordered_first_success.2.1 _ [tag "1".toList] (tag "2".toList)
    [tag "3".toList] "2".toList [] "2".toList ?_ (by decide)
  intro q hq
  rw [List.mem_singleton] at hq
  subst hq
  exact ⟨"2".toList, .Tag, by decide⟩

/-- Claim C9: the derived `double` parser accepts `"1.0"`, `"2"`, `"2e2"`,
`"2e-2"`, `"-2"`, `"+2"`, `"+.2"`, `"-.2"` entirely, with the decimal
values claimed (over exact rationals: `0.02 = 1/50`, `0.2 = 1/5`); it fails
on `"abc"` and on a bare `"."`; and an exponent marker with no following
digits is not accepted as part of the literal: on `"2e"` and `"2e+"` the
parse succeeds consuming only `"2"`, leaving the marker unconsumed. -/
theorem double_conformance :
    double "1.0".toList = some (.ok [] 1) ∧
    double "2".toList = some (.ok [] 2) ∧
    double "2e2".toList = some (.ok [] 200) ∧
    double "2e-2".toList = some (.ok [] (1 / 50)) ∧
    double "-2".toList = some (.ok [] (-2)) ∧
    double "+2".toList = some (.ok [] 2) ∧
    double "+.2".toList = some (.ok [] (1 / 5)) ∧
    double "-.2".toList = some (.ok [] (-(1 / 5))) ∧
    double "abc".toList = some (.err "abc".toList .Tag) ∧
    double ".".toList = some (.err [] .TakeWhile) ∧
    double "2e".toList = some (.ok ['e'] 2) ∧
    double "2e+".toList = some (.ok ['e', '+'] 2) := by
  have e1 : double "1.0".toList = some (.ok []
      ((1 : ℚ) * (((1 : ℕ) : ℚ) + ((0 : ℕ) : ℚ) / (10 : ℚ) ^ (1 : ℕ)) * 1)) := by
    rfl
  have e2 : double "2".toList = some (.ok [] ((1 : ℚ) * ((2 : ℕ) : ℚ) * 1)) := by
    rfl
  have e3 : double "2e2".toList = some (.ok []
      ((1 : ℚ) * ((2 : ℕ) : ℚ) * (10 : ℚ) ^ (2 : ℕ))) := by
    rfl
  have e4 : double "2e-2".toList = some (.ok []
      ((1 : ℚ) * ((2 : ℕ) : ℚ) * ((1 : ℚ) / (10 : ℚ) ^ (2 : ℕ)))) := by
    rfl
  have e5 : double "-2".toList = some (.ok [] ((-1 : ℚ) * ((2 : ℕ) : ℚ) * 1)) := by
    rfl
  have e6 : double "+2".toList = some (.ok [] ((1 : ℚ) * ((2 : ℕ) : ℚ) * 1)) := by
    rfl
  have e7 : double "+.2".toList = some (.ok []
      ((1 : ℚ) * (((0 : ℕ) : ℚ) + ((2 : ℕ) : ℚ) / (10 : ℚ) ^ (1 : ℕ)) * 1)) := by
    rfl
  have e8 : double "-.2".toList = some (.ok []
      ((-1 : ℚ) * (((0 : ℕ) : ℚ) + ((2 : ℕ) : ℚ) / (10 : ℚ) ^ (1 : ℕ)) * 1)) := by
    rfl
  have e11 : double "2e".toList = some (.ok ['e']
      ((1 : ℚ) * ((2 : ℕ) : ℚ) * 1)) := by
    rfl
  have e12 : double "2e+".toList = some (.ok ['e', '+']
      ((1 : ℚ) * ((2 : ℕ) : ℚ) * 1)) := by
    rfl
  refine ⟨?_, ?_, ?_, ?_, ?_, ?_, ?_, ?_, by decide, by decide, ?_, ?_⟩
  · rw [e1, Option.some.injEq, PRes.ok.injEq]
    exact ⟨rfl, by norm_num⟩
  · rw [e2, Option.some.injEq, PRes.ok.injEq]
    exact ⟨rfl, by norm_num⟩
  · rw [e3, Option.some.injEq, PRes.ok.injEq]
    exact ⟨rfl, by norm_num⟩
  · rw [e4, Option.some.injEq, PRes.ok.injEq]
    exact ⟨rfl, by norm_num⟩
  · rw [e5, Option.some.injEq, PRes.ok.injEq]
    exact ⟨rfl, by norm_num⟩
  · rw [e6, Option.some.injEq, PRes.ok.injEq]
    exact ⟨rfl, by norm_num⟩
  · rw [e7, Option.some.injEq, PRes.ok.injEq]
    exact ⟨rfl, by norm_num⟩
  · rw [e8, Option.some.injEq, PRes.ok.injEq]
    exact ⟨rfl, by norm_num⟩
  · rw [e11, Option.some.injEq, PRes.ok.injEq]
    exact ⟨rfl, by norm_num⟩
  · rw [e12, Option.some.injEq, PRes.ok.injEq]
    exact ⟨rfl, by norm_num⟩

/-- Claim C10: `choice` applied to an empty collection fails with `Choice`
at the original, unconsumed input view, for every input and result type —
a defined outcome, not a panic. -/
theorem choice_empty_collection (R : Type) (i : List Char) :
    choice ([] : List (Parser R)) i = some (.err i .Choice) :=
  rfl

end comb
